import Mathlib

/-!
Verification of the directory-structure-visualizer core: the dual-grammar
parser (`src/lib/parser.ts`) and the tree-state engine
(`src/hooks/useTreeState.ts`), shallowly embedded in Lean.

Embedding conventions:
* The TypeScript interface `TreeNode` (`src/lib/types.ts`) has an optional
  `children?: TreeNode[]` field.  It is embedded as a mutual inductive
  family `TreeNode` / `Children` / `Forest`, where `Children` plays the
  role of `Option (List TreeNode)`; this keeps all recursive definitions
  structural so that they evaluate inside the kernel.
* The optional boolean `isExpanded?` is embedded as `Bool`; JavaScript
  truthiness collapses `undefined` to `false` at every read site
  (`!node.isExpanded`, `node.isExpanded &&`), so this is a faithful
  quotient of the source's value space.
* `generateId` in the source draws on `Date.now()`/`Math.random()`; it is
  embedded as a deterministic counter (`node-0`, `node-1`, ...) threaded
  through the parsers, which preserves everything the spec talks about
  (ids are opaque and only compared for equality).
* The parsers in the source build trees by mutation: a created node is
  pushed into its parent's `children` array immediately and folders are
  additionally pushed on an explicit stack.  The embedding defers the
  attachment of a pending folder to the moment it is popped off the
  stack, which produces the same forest in the same sibling order (a
  node is attached to its parent before anything later is).
* JavaScript string whitespace (`trim`, `\s`) is embedded as `isSpace`
  over the common whitespace characters.
-/

/-- JavaScript-style whitespace test (the characters relevant to `trim`
and `\s` for this code base). -/
def isSpace (c : Char) : Bool :=
  c = ' ' || c = '\t' || c = '\n' || c = '\r' || c = '\x0b' || c = '\x0c'

/-- `String.prototype.trim`: drop whitespace from both ends. -/
def trimChars (l : List Char) : List Char :=
  ((l.dropWhile isSpace).reverse.dropWhile isSpace).reverse

/-- `String.prototype.split('\n')`: never returns an empty list;
`"".split('\n')` is `[""]`. -/
def splitLines : List Char → List (List Char)
  | [] => [[]]
  | c :: cs =>
    if c = '\n' then [] :: splitLines cs
    else
      match splitLines cs with
      | [] => [[c]]
      | l :: ls => (c :: l) :: ls

/-- `Array.prototype.join('\n')`. -/
def joinNL : List (List Char) → List Char
  | [] => []
  | [l] => l
  | l :: ls => l ++ '\n' :: joinNL ls

/-- First character test (`s.startsWith(c)` for a one-character needle). -/
def headIs (c : Char) : List Char → Bool
  | [] => false
  | x :: _ => x = c

/-- Last character test (`s.endsWith(c)` for a one-character needle). -/
def lastIs (c : Char) (l : List Char) : Bool :=
  headIs c l.reverse

/-- `s.slice(0, -1)`: drop the final character. -/
def dropLastChar (l : List Char) : List Char :=
  (l.reverse.drop 1).reverse

/-- The node kind: `type: 'file' | 'folder'` in `src/lib/types.ts`. -/
inductive NodeType : Type where
  | file
  | folder
deriving DecidableEq, Repr

mutual
/-- `TreeNode` from `src/lib/types.ts`:
`{ id; name; type; children?; isExpanded?; depth }`. -/
inductive TreeNode : Type where
  | mk (id : String) (name : String) (ntype : NodeType) (depth : Nat)
       (isExpanded : Bool) (children : Children) : TreeNode

/-- The optional `children?: TreeNode[]` field (`none` = `undefined`). -/
inductive Children : Type where
  | none : Children
  | some (forest : Forest) : Children

/-- An array of `TreeNode` (the forest of roots, or a `children` array). -/
inductive Forest : Type where
  | nil : Forest
  | cons (node : TreeNode) (rest : Forest) : Forest
end

def TreeNode.id : TreeNode → String
  | .mk i _ _ _ _ _ => i

def TreeNode.name : TreeNode → String
  | .mk _ n _ _ _ _ => n

def TreeNode.ntype : TreeNode → NodeType
  | .mk _ _ t _ _ _ => t

def TreeNode.depth : TreeNode → Nat
  | .mk _ _ _ d _ _ => d

def TreeNode.isExpanded : TreeNode → Bool
  | .mk _ _ _ _ e _ => e

def TreeNode.children : TreeNode → Children
  | .mk _ _ _ _ _ c => c

/-- `array.push(x)` on a forest. -/
def Forest.snoc : Forest → TreeNode → Forest
  | .nil, x => .cons x .nil
  | .cons n rest, x => .cons n (Forest.snoc rest x)

/-- `array.length === 0`. -/
def Forest.isNil : Forest → Bool
  | .nil => true
  | .cons _ _ => false

/-- Length of a forest (number of top-level nodes). -/
def Forest.length : Forest → Nat
  | .nil => 0
  | .cons _ rest => Forest.length rest + 1

/-- `TreeState` from `src/lib/types.ts`. -/
structure TreeState : Type where
  nodes : Forest
  selectedNodeId : Option String

/-- `TreeAction` from `src/lib/types.ts`. -/
inductive TreeAction : Type where
  | setTree (payload : Forest)
  | toggleExpand (payload : String)
  | renameNode (id : String) (name : String)
  | deleteNode (payload : String)
  | selectNode (payload : Option String)
  | addNode (parentId : String) (nodeType : NodeType)

mutual
/-- `toggleNodeExpand` from `src/hooks/useTreeState.ts`: flip `isExpanded`
on the node matching `targetId` when it is a folder (without recursing
into its children); otherwise recurse into `children` when present. -/
def toggleNodeExpand (nodes : Forest) (targetId : String) : Forest :=
  match nodes with
  | .nil => .nil
  | .cons (TreeNode.mk i nm t d e c) rest =>
    .cons
      (if i = targetId ∧ t = NodeType.folder then
         TreeNode.mk i nm t d (!e) c
       else
         TreeNode.mk i nm t d e (toggleChildren c targetId))
      (toggleNodeExpand rest targetId)

def toggleChildren (c : Children) (targetId : String) : Children :=
  match c with
  | .none => .none
  | .some cs => .some (toggleNodeExpand cs targetId)
end

mutual
/-- `renameNode` from `src/hooks/useTreeState.ts`: set `name` on the node
matching `targetId` (without recursing into its children); otherwise
recurse into `children` when present. -/
def renameNode (nodes : Forest) (targetId : String) (newName : String) : Forest :=
  match nodes with
  | .nil => .nil
  | .cons (TreeNode.mk i nm t d e c) rest =>
    .cons
      (if i = targetId then
         TreeNode.mk i newName t d e c
       else
         TreeNode.mk i nm t d e (renameChildren c targetId newName))
      (renameNode rest targetId newName)

def renameChildren (c : Children) (targetId : String) (newName : String) : Children :=
  match c with
  | .none => .none
  | .some cs => .some (renameNode cs targetId newName)
end

mutual
/-- `deleteNode` from `src/hooks/useTreeState.ts`: filter out nodes whose
id matches `targetId`, then recurse into the children of the others. -/
def deleteNode (nodes : Forest) (targetId : String) : Forest :=
  match nodes with
  | .nil => .nil
  | .cons (TreeNode.mk i nm t d e c) rest =>
    if i = targetId then deleteNode rest targetId
    else
      .cons (TreeNode.mk i nm t d e (deleteChildren c targetId))
        (deleteNode rest targetId)

def deleteChildren (c : Children) (targetId : String) : Children :=
  match c with
  | .none => .none
  | .some cs => .some (deleteNode cs targetId)
end

mutual
/-- `findNodeById` from `src/hooks/useTreeState.ts`: depth-first search,
current node first, then its children, then the following siblings. -/
def findNodeById (nodes : Forest) (targetId : String) : Option TreeNode :=
  match nodes with
  | .nil => Option.none
  | .cons (TreeNode.mk i nm t d e c) rest =>
    if i = targetId then Option.some (TreeNode.mk i nm t d e c)
    else
      match findChildrenById c targetId with
      | Option.some found => Option.some found
      | Option.none => findNodeById rest targetId

def findChildrenById (c : Children) (targetId : String) : Option TreeNode :=
  match c with
  | .none => Option.none
  | .some cs => findNodeById cs targetId
end

/-- `treeReducer` from `src/hooks/useTreeState.ts`.  `ADD_NODE` has no
case in the reducer's `switch` and falls through to `default`. -/
def treeReducer (state : TreeState) (action : TreeAction) : TreeState :=
  match action with
  | .setTree payload => { nodes := payload, selectedNodeId := Option.none }
  | .toggleExpand id => { state with nodes := toggleNodeExpand state.nodes id }
  | .renameNode id name => { state with nodes := renameNode state.nodes id name }
  | .deleteNode id =>
    { nodes := deleteNode state.nodes id,
      selectedNodeId :=
        if state.selectedNodeId = Option.some id then Option.none
        else state.selectedNodeId }
  | .selectNode id => { state with selectedNodeId := id }
  | .addNode _ _ => state

mutual
/-- All ids of a node and its descendants, in DFS order. -/
def nodeIds (n : TreeNode) : List String :=
  match n with
  | .mk i _ _ _ _ c => i :: childrenIds c

def childrenIds : Children → List String
  | .none => []
  | .some f => forestIds f

/-- All ids occurring anywhere in a forest, in DFS order. -/
def forestIds : Forest → List String
  | .nil => []
  | .cons n rest => nodeIds n ++ forestIds rest
end

/-- `Occurs n f`: the node `n` occurs somewhere in the forest `f`
(as a root or nested arbitrarily deep). -/
inductive Occurs : TreeNode → Forest → Prop where
  | head (n : TreeNode) (rest : Forest) : Occurs n (.cons n rest)
  | tail (n m : TreeNode) (rest : Forest) :
      Occurs n rest → Occurs n (.cons m rest)
  | child (n : TreeNode) (i nm : String) (t : NodeType) (d : Nat) (e : Bool)
      (cs rest : Forest) :
      Occurs n cs → Occurs n (.cons (TreeNode.mk i nm t d e (.some cs)) rest)


/-! ### Basic lemmas about ids, lookup and the recursive transforms -/

theorem forestIds_cons (n : TreeNode) (rest : Forest) :
    forestIds (.cons n rest) = nodeIds n ++ forestIds rest := by
  simp [forestIds]

theorem nodeIds_mk (i nm : String) (t : NodeType) (d : Nat) (e : Bool) (c : Children) :
    nodeIds (TreeNode.mk i nm t d e c) = i :: childrenIds c := by
  simp [nodeIds]

mutual
theorem renameNode_eq_of_not_mem :
    ∀ (f : Forest) (tid nm : String), tid ∉ forestIds f → renameNode f tid nm = f
  | .nil, _, _, _ => rfl
  | .cons (TreeNode.mk i nm0 t d e c) rest, tid, nm, h => by
    rw [forestIds_cons, nodeIds_mk] at h
    simp only [List.mem_append, List.mem_cons] at h
    push_neg at h
    obtain ⟨⟨hne, hc⟩, hrest⟩ := h
    rw [renameNode, if_neg (by simpa [eq_comm] using hne),
      renameChildren_eq_of_not_mem c tid nm hc,
      renameNode_eq_of_not_mem rest tid nm hrest]

theorem renameChildren_eq_of_not_mem :
    ∀ (c : Children) (tid nm : String), tid ∉ childrenIds c → renameChildren c tid nm = c
  | .none, _, _, _ => rfl
  | .some f, tid, nm, h => by
    rw [renameChildren, renameNode_eq_of_not_mem f tid nm (by simpa [childrenIds] using h)]
end

mutual
theorem toggleNodeExpand_eq_of_not_mem :
    ∀ (f : Forest) (tid : String), tid ∉ forestIds f → toggleNodeExpand f tid = f
  | .nil, _, _ => rfl
  | .cons (TreeNode.mk i nm t d e c) rest, tid, h => by
    rw [forestIds_cons, nodeIds_mk] at h
    simp only [List.mem_append, List.mem_cons] at h
    push_neg at h
    obtain ⟨⟨hne, hc⟩, hrest⟩ := h
    rw [toggleNodeExpand,
      if_neg (by rintro ⟨rfl, -⟩; exact hne rfl),
      toggleChildren_eq_of_not_mem c tid hc,
      toggleNodeExpand_eq_of_not_mem rest tid hrest]

theorem toggleChildren_eq_of_not_mem :
    ∀ (c : Children) (tid : String), tid ∉ childrenIds c → toggleChildren c tid = c
  | .none, _, _ => rfl
  | .some f, tid, h => by
    rw [toggleChildren, toggleNodeExpand_eq_of_not_mem f tid (by simpa [childrenIds] using h)]
end

mutual
theorem findNodeById_eq_none_iff :
    ∀ (f : Forest) (tid : String), findNodeById f tid = Option.none ↔ tid ∉ forestIds f
  | .nil, tid => by simp [findNodeById, forestIds]
  | .cons (TreeNode.mk i nm t d e c) rest, tid => by
    rw [findNodeById, forestIds_cons, nodeIds_mk]
    by_cases hi : i = tid
    · subst hi
      simp
    · rw [if_neg hi]
      rcases hfc : findChildrenById c tid with _ | found
      · have hc := (findChildrenById_eq_none_iff c tid).mp hfc
        have hr := findNodeById_eq_none_iff rest tid
        simp [hr, hc, Ne.symm hi]
      · have hc : tid ∈ childrenIds c := by
          by_contra hcI
          rw [(findChildrenById_eq_none_iff c tid).mpr hcI] at hfc
          cases hfc
        simp [hc]

theorem findChildrenById_eq_none_iff :
    ∀ (c : Children) (tid : String), findChildrenById c tid = Option.none ↔ tid ∉ childrenIds c
  | .none, tid => by simp [findChildrenById, childrenIds]
  | .some f, tid => by
    rw [findChildrenById]
    simpa [childrenIds] using findNodeById_eq_none_iff f tid
end

mutual
theorem findNodeById_eq_some :
    ∀ (f : Forest) (tid : String) (m : TreeNode),
      findNodeById f tid = Option.some m → Occurs m f ∧ m.id = tid
  | .cons (TreeNode.mk i nm t d e c) rest, tid, m, h => by
    rw [findNodeById] at h
    by_cases hi : i = tid
    · rw [if_pos hi] at h
      cases h
      exact ⟨Occurs.head _ _, hi⟩
    · rw [if_neg hi] at h
      rcases hfc : findChildrenById c tid with _ | found
      · rw [hfc] at h
        have := findNodeById_eq_some rest tid m h
        exact ⟨Occurs.tail _ _ _ this.1, this.2⟩
      · rw [hfc] at h
        cases h
        obtain ⟨cs, rfl, hocc, hid⟩ := findChildrenById_eq_some c tid m hfc
        exact ⟨Occurs.child _ _ _ _ _ _ _ _ hocc, hid⟩

theorem findChildrenById_eq_some :
    ∀ (c : Children) (tid : String) (m : TreeNode),
      findChildrenById c tid = Option.some m →
        ∃ cs, c = .some cs ∧ Occurs m cs ∧ m.id = tid
  | .some f, tid, m, h => by
    rw [findChildrenById] at h
    obtain ⟨hocc, hid⟩ := findNodeById_eq_some f tid m h
    exact ⟨f, rfl, hocc, hid⟩
end

theorem nodeIds_subset_of_occurs {n : TreeNode} {f : Forest} (h : Occurs n f) :
    ∀ x ∈ nodeIds n, x ∈ forestIds f := by
  induction h with
  | head rest =>
    intro x hx
    rw [forestIds_cons]
    exact List.mem_append_left _ hx
  | tail m rest _ ih =>
    intro x hx
    rw [forestIds_cons]
    exact List.mem_append_right _ (ih x hx)
  | child i nm t d e cs rest _ ih =>
    intro x hx
    rw [forestIds_cons, nodeIds_mk]
    exact List.mem_append_left _ (List.mem_cons_of_mem _ (by simpa [childrenIds] using ih x hx))

theorem nodup_parts (i : String) (ci rest : List String)
    (h : ((i :: ci) ++ rest).Nodup) :
    i ∉ ci ∧ ci.Nodup ∧ rest.Nodup ∧ i ∉ rest ∧ ∀ x ∈ ci, x ∉ rest := by
  rw [List.nodup_append] at h
  obtain ⟨h1, h2, h3⟩ := h
  rw [List.nodup_cons] at h1
  refine ⟨h1.1, h1.2, h2, ?_, ?_⟩
  · exact h3 (List.mem_cons_self i ci)
  · intro x hx
    exact h3 (List.mem_cons_of_mem _ hx)

theorem id_mem_nodeIds (n : TreeNode) : n.id ∈ nodeIds n := by
  cases n
  simp [nodeIds, TreeNode.id]

mutual
theorem renameNode_self_of_found :
    ∀ (f : Forest) (tid : String) (m : TreeNode),
      (forestIds f).Nodup → findNodeById f tid = Option.some m →
      renameNode f tid m.name = f
  | .cons (TreeNode.mk i nm t d e c) rest, tid, m, hnd, hf => by
    rw [forestIds_cons, nodeIds_mk] at hnd
    obtain ⟨hic, hcnd, hrnd, hir, hcr⟩ := nodup_parts i (childrenIds c) (forestIds rest) hnd
    rw [findNodeById] at hf
    by_cases hi : i = tid
    · rw [if_pos hi] at hf
      cases hf
      rw [renameNode, if_pos hi]
      rw [renameNode_eq_of_not_mem rest tid _ (hi ▸ hir)]
      simp [TreeNode.name]
    · rw [if_neg hi] at hf
      rcases hfc : findChildrenById c tid with _ | found
      · rw [hfc] at hf
        rw [renameNode, if_neg hi,
          renameChildren_eq_of_not_mem c tid _ ((findChildrenById_eq_none_iff c tid).mp hfc),
          renameNode_self_of_found rest tid m hrnd hf]
      · rw [hfc] at hf
        cases hf
        obtain ⟨cs, hc, hocc, hid⟩ := findChildrenById_eq_some c tid m hfc
        subst hc
        have htid_mem : tid ∈ childrenIds (Children.some cs) := by
          simpa [childrenIds, hid] using
            nodeIds_subset_of_occurs hocc m.id (id_mem_nodeIds m)
        rw [renameNode, if_neg hi,
          renameChildren_self_of_found (Children.some cs) tid m hcnd hfc,
          renameNode_eq_of_not_mem rest tid _ (hcr tid htid_mem)]

theorem renameChildren_self_of_found :
    ∀ (c : Children) (tid : String) (m : TreeNode),
      (childrenIds c).Nodup → findChildrenById c tid = Option.some m →
      renameChildren c tid m.name = c
  | .some f, tid, m, hnd, hf => by
    rw [findChildrenById] at hf
    rw [renameChildren,
      renameNode_self_of_found f tid m (by simpa [childrenIds] using hnd) hf]
end

/-- **C9** (spec §8.8): for every state and every id present in the forest
(under the spec's own precondition that ids are pairwise distinct,
§3 invariant 1 / §4.5), dispatching `RENAME_NODE` with the matched node's
current name yields a forest structurally identical to the prior forest. -/
theorem rename_to_current_name_is_noop (st : TreeState) (tid : String) (m : TreeNode)
    (hnd : (forestIds st.nodes).Nodup)
    (hf : findNodeById st.nodes tid = Option.some m) :
    (treeReducer st (TreeAction.renameNode tid m.name)).nodes = st.nodes := by
  show renameNode st.nodes tid m.name = st.nodes
  exact renameNode_self_of_found st.nodes tid m hnd hf

/-- Witness for C9 at a concrete two-node state: renaming folder `a`
(id `1`) to its current name `a` leaves the forest unchanged. -/
theorem rename_to_current_name_is_noop_witness :
    (treeReducer
        { nodes := .cons (TreeNode.mk "1" "a" .folder 0 true
            (.some (.cons (TreeNode.mk "2" "b.txt" .file 1 true .none) .nil))) .nil,
          selectedNodeId := Option.none }
        (TreeAction.renameNode "1" "a")).nodes
      = .cons (TreeNode.mk "1" "a" .folder 0 true
          (.some (.cons (TreeNode.mk "2" "b.txt" .file 1 true .none) .nil))) .nil :=
  rename_to_current_name_is_noop
    { nodes := .cons (TreeNode.mk "1" "a" .folder 0 true
        (.some (.cons (TreeNode.mk "2" "b.txt" .file 1 true .none) .nil))) .nil,
      selectedNodeId := Option.none }
    "1" (TreeNode.mk "1" "a" .folder 0 true
      (.some (.cons (TreeNode.mk "2" "b.txt" .file 1 true .none) .nil)))
    (by decide) rfl

mutual
/-- Comparison definition for C6, modelled from the claim's wording (not
from the source): flip `isExpanded` on each node that matches `tid` and
is a Folder, leaving every other node and every other field unchanged. -/
def toggleSpecForest (f : Forest) (tid : String) : Forest :=
  match f with
  | .nil => .nil
  | .cons (TreeNode.mk i nm t d e c) rest =>
    .cons
      (if i = tid ∧ t = NodeType.folder then
         TreeNode.mk i nm t d (!e) (toggleSpecChildren c tid)
       else
         TreeNode.mk i nm t d e (toggleSpecChildren c tid))
      (toggleSpecForest rest tid)

def toggleSpecChildren (c : Children) (tid : String) : Children :=
  match c with
  | .none => .none
  | .some cs => .some (toggleSpecForest cs tid)
end

mutual
theorem toggleSpecForest_eq_of_not_mem :
    ∀ (f : Forest) (tid : String), tid ∉ forestIds f → toggleSpecForest f tid = f
  | .nil, _, _ => rfl
  | .cons (TreeNode.mk i nm t d e c) rest, tid, h => by
    rw [forestIds_cons, nodeIds_mk] at h
    simp only [List.mem_append, List.mem_cons] at h
    push_neg at h
    obtain ⟨⟨hne, hc⟩, hrest⟩ := h
    rw [toggleSpecForest,
      if_neg (by rintro ⟨rfl, -⟩; exact hne rfl),
      toggleSpecChildren_eq_of_not_mem c tid hc,
      toggleSpecForest_eq_of_not_mem rest tid hrest]

theorem toggleSpecChildren_eq_of_not_mem :
    ∀ (c : Children) (tid : String), tid ∉ childrenIds c → toggleSpecChildren c tid = c
  | .none, _, _ => rfl
  | .some f, tid, h => by
    rw [toggleSpecChildren,
      toggleSpecForest_eq_of_not_mem f tid (by simpa [childrenIds] using h)]
end

mutual
theorem toggleNodeExpand_eq_spec :
    ∀ (f : Forest) (tid : String), (forestIds f).Nodup →
      toggleNodeExpand f tid = toggleSpecForest f tid
  | .nil, _, _ => rfl
  | .cons (TreeNode.mk i nm t d e c) rest, tid, hnd => by
    rw [forestIds_cons, nodeIds_mk] at hnd
    obtain ⟨hic, hcnd, hrnd, hir, hcr⟩ := nodup_parts i (childrenIds c) (forestIds rest) hnd
    rw [toggleNodeExpand, toggleSpecForest]
    by_cases hit : i = tid ∧ t = NodeType.folder
    · rw [if_pos hit, if_pos hit,
        toggleSpecChildren_eq_of_not_mem c tid (hit.1 ▸ hic),
        toggleNodeExpand_eq_spec rest tid hrnd]
    · rw [if_neg hit, if_neg hit,
        toggleChildren_eq_specChildren c tid hcnd,
        toggleNodeExpand_eq_spec rest tid hrnd]

theorem toggleChildren_eq_specChildren :
    ∀ (c : Children) (tid : String), (childrenIds c).Nodup →
      toggleChildren c tid = toggleSpecChildren c tid
  | .none, _, _ => rfl
  | .some f, tid, hnd => by
    rw [toggleChildren, toggleSpecChildren,
      toggleNodeExpand_eq_spec f tid (by simpa [childrenIds] using hnd)]
end

mutual
theorem toggleNodeExpand_eq_self_of_found_file :
    ∀ (f : Forest) (tid : String) (m : TreeNode), (forestIds f).Nodup →
      findNodeById f tid = Option.some m → m.ntype = NodeType.file →
      toggleNodeExpand f tid = f
  | .cons (TreeNode.mk i nm t d e c) rest, tid, m, hnd, hf, hfile => by
    rw [forestIds_cons, nodeIds_mk] at hnd
    obtain ⟨hic, hcnd, hrnd, hir, hcr⟩ := nodup_parts i (childrenIds c) (forestIds rest) hnd
    rw [findNodeById] at hf
    by_cases hi : i = tid
    · rw [if_pos hi] at hf
      cases hf
      simp only [TreeNode.ntype] at hfile
      rw [toggleNodeExpand,
        if_neg (by rintro ⟨-, hfold⟩; rw [hfile] at hfold; cases hfold),
        toggleChildren_eq_of_not_mem c tid (hi ▸ hic),
        toggleNodeExpand_eq_of_not_mem rest tid (hi ▸ hir)]
    · rw [if_neg hi] at hf
      rcases hfc : findChildrenById c tid with _ | found
      · rw [hfc] at hf
        rw [toggleNodeExpand,
          if_neg (by rintro ⟨h1, -⟩; exact hi h1),
          toggleChildren_eq_of_not_mem c tid ((findChildrenById_eq_none_iff c tid).mp hfc),
          toggleNodeExpand_eq_self_of_found_file rest tid m hrnd hf hfile]
      · rw [hfc] at hf
        cases hf
        obtain ⟨cs, hceq, hocc, hid⟩ := findChildrenById_eq_some c tid m hfc
        subst hceq
        have htid_mem : tid ∈ childrenIds (Children.some cs) := by
          simpa [childrenIds, hid] using
            nodeIds_subset_of_occurs hocc m.id (id_mem_nodeIds m)
        rw [toggleNodeExpand,
          if_neg (by rintro ⟨h1, -⟩; exact hi h1),
          toggleChildren_eq_self_of_found_file (Children.some cs) tid m hcnd hfc hfile,
          toggleNodeExpand_eq_of_not_mem rest tid (hcr tid htid_mem)]

theorem toggleChildren_eq_self_of_found_file :
    ∀ (c : Children) (tid : String) (m : TreeNode), (childrenIds c).Nodup →
      findChildrenById c tid = Option.some m → m.ntype = NodeType.file →
      toggleChildren c tid = c
  | .some f, tid, m, hnd, hf, hfile => by
    rw [findChildrenById] at hf
    rw [toggleChildren,
      toggleNodeExpand_eq_self_of_found_file f tid m (by simpa [childrenIds] using hnd) hf hfile]
end

/-- **C6** (spec §4.5, §8.6): under the spec's distinct-ids precondition,
dispatching `TOGGLE_EXPAND(id)` (a) keeps the selection, (b) produces the
forest in which exactly the matching Folder node has its `isExpanded`
flag flipped and every other node and field is unchanged (the pointwise
description `toggleSpecForest`), and (c,d) is a structural no-op when no
node matches the id or when the matching node is a File. -/
theorem toggleExpand_flips_unique_folder (st : TreeState) (tid : String)
    (hnd : (forestIds st.nodes).Nodup) :
    (treeReducer st (TreeAction.toggleExpand tid)).selectedNodeId = st.selectedNodeId
    ∧ (treeReducer st (TreeAction.toggleExpand tid)).nodes = toggleSpecForest st.nodes tid
    ∧ (findNodeById st.nodes tid = Option.none →
        (treeReducer st (TreeAction.toggleExpand tid)).nodes = st.nodes)
    ∧ (∀ m, findNodeById st.nodes tid = Option.some m → m.ntype = NodeType.file →
        (treeReducer st (TreeAction.toggleExpand tid)).nodes = st.nodes) := by
  refine ⟨rfl, ?_, ?_, ?_⟩
  · exact toggleNodeExpand_eq_spec st.nodes tid hnd
  · intro hnone
    exact toggleNodeExpand_eq_of_not_mem st.nodes tid
      ((findNodeById_eq_none_iff st.nodes tid).mp hnone)
  · intro m hf hfile
    exact toggleNodeExpand_eq_self_of_found_file st.nodes tid m hnd hf hfile

/-- Witness for C6 at a concrete state: toggling the File id `2` leaves
the forest structurally unchanged. -/
theorem toggleExpand_flips_unique_folder_witness :
    (treeReducer
        { nodes := .cons (TreeNode.mk "1" "a" .folder 0 true
            (.some (.cons (TreeNode.mk "2" "b.txt" .file 1 true .none) .nil))) .nil,
          selectedNodeId := Option.some "2" }
        (TreeAction.toggleExpand "2")).nodes
      = .cons (TreeNode.mk "1" "a" .folder 0 true
          (.some (.cons (TreeNode.mk "2" "b.txt" .file 1 true .none) .nil))) .nil :=
  (toggleExpand_flips_unique_folder
      { nodes := .cons (TreeNode.mk "1" "a" .folder 0 true
          (.some (.cons (TreeNode.mk "2" "b.txt" .file 1 true .none) .nil))) .nil,
        selectedNodeId := Option.some "2" }
      "2" (by decide)).2.2.2
    (TreeNode.mk "2" "b.txt" .file 1 true .none) rfl rfl

mutual
theorem forestIds_deleteNode_subset :
    ∀ (f : Forest) (tid x : String), x ∈ forestIds (deleteNode f tid) → x ∈ forestIds f
  | .nil, tid, x, hx => by rw [deleteNode] at hx; exact hx
  | .cons (TreeNode.mk i nm t d e c) rest, tid, x, hx => by
    rw [deleteNode] at hx
    by_cases hi : i = tid
    · rw [if_pos hi] at hx
      rw [forestIds_cons]
      exact List.mem_append_right _ (forestIds_deleteNode_subset rest tid x hx)
    · rw [if_neg hi] at hx
      rw [forestIds_cons, nodeIds_mk] at hx ⊢
      simp only [List.mem_append, List.mem_cons] at hx ⊢
      rcases hx with (rfl | hx) | hx
      · exact Or.inl (Or.inl rfl)
      · exact Or.inl (Or.inr (childrenIds_deleteChildren_subset c tid x hx))
      · exact Or.inr (forestIds_deleteNode_subset rest tid x hx)

theorem childrenIds_deleteChildren_subset :
    ∀ (c : Children) (tid x : String), x ∈ childrenIds (deleteChildren c tid) → x ∈ childrenIds c
  | .none, tid, x, hx => by rw [deleteChildren] at hx; exact hx
  | .some f, tid, x, hx => by
    rw [deleteChildren] at hx
    simp only [childrenIds] at hx ⊢
    exact forestIds_deleteNode_subset f tid x hx
end


theorem nodeIds_not_mem_delete {n : TreeNode} {f : Forest} (hocc : Occurs n f) :
    (forestIds f).Nodup → ∀ x ∈ nodeIds n, x ∉ forestIds (deleteNode f n.id) := by
  induction hocc with
  | head rest =>
    intro hnd x hx hmem
    cases n with
    | mk i nm t d e c =>
      rw [forestIds_cons, nodeIds_mk] at hnd
      obtain ⟨hic, hcnd, hrnd, hir, hcr⟩ := nodup_parts i (childrenIds c) (forestIds rest) hnd
      rw [TreeNode.id, deleteNode, if_pos rfl] at hmem
      have hxr : x ∈ forestIds rest := forestIds_deleteNode_subset rest i x hmem
      rw [nodeIds_mk] at hx
      rcases List.mem_cons.mp hx with rfl | hx
      · exact hir hxr
      · exact hcr x hx hxr
  | tail m rest hr ih =>
    intro hnd x hx hmem
    cases m with
    | mk j nm t d e c =>
      rw [forestIds_cons, nodeIds_mk] at hnd
      obtain ⟨hic, hcnd, hrnd, hir, hcr⟩ := nodup_parts j (childrenIds c) (forestIds rest) hnd
      have hxrest : x ∈ forestIds rest := nodeIds_subset_of_occurs hr x hx
      rw [deleteNode] at hmem
      by_cases hj : j = n.id
      · rw [if_pos hj] at hmem
        exact ih hrnd x hx hmem
      · rw [if_neg hj, forestIds_cons, nodeIds_mk] at hmem
        rcases List.mem_append.mp hmem with hmem | hmem
        · rcases List.mem_cons.mp hmem with rfl | hmem
          · exact hir hxrest
          · exact hcr x (childrenIds_deleteChildren_subset c _ x hmem) hxrest
        · exact ih hrnd x hx hmem
  | child i0 nm t d e cs rest hr ih =>
    intro hnd x hx hmem
    rw [forestIds_cons, nodeIds_mk] at hnd
    obtain ⟨hic, hcnd, hrnd, hir, hcr⟩ :=
      nodup_parts i0 (childrenIds (Children.some cs)) (forestIds rest) hnd
    have hxcs : x ∈ childrenIds (Children.some cs) := by
      simpa [childrenIds] using nodeIds_subset_of_occurs hr x hx
    rw [deleteNode] at hmem
    by_cases hj : i0 = n.id
    · rw [if_pos hj] at hmem
      exact hcr x hxcs (forestIds_deleteNode_subset rest _ x hmem)
    · rw [if_neg hj, forestIds_cons, nodeIds_mk] at hmem
      rcases List.mem_append.mp hmem with hmem | hmem
      · rcases List.mem_cons.mp hmem with rfl | hmem
        · exact hic hxcs
        · have hxdel : x ∈ forestIds (deleteNode cs n.id) := by
            simpa [deleteChildren, childrenIds] using hmem
          exact ih (by simpa [childrenIds] using hcnd) x hx hxdel
      · exact hcr x hxcs (forestIds_deleteNode_subset rest _ x hmem)

/-- **C5** (spec §4.5, §8.7, §8.10): under the spec's distinct-ids
precondition, dispatching `DELETE_NODE(id)` removes the node matching
`id` together with its entire subtree: afterwards no id of that subtree
(the deleted node's own id included) is findable via `findNodeById`.
The resulting selection is `null` exactly when the deleted id was the
selected one, and is preserved otherwise. -/
theorem delete_removes_subtree (st : TreeState) (tid : String) (n : TreeNode)
    (hnd : (forestIds st.nodes).Nodup) (hocc : Occurs n st.nodes) (hid : n.id = tid) :
    (∀ x ∈ nodeIds n,
        findNodeById (treeReducer st (TreeAction.deleteNode tid)).nodes x = Option.none)
    ∧ (treeReducer st (TreeAction.deleteNode tid)).selectedNodeId
        = (if st.selectedNodeId = Option.some tid then Option.none
           else st.selectedNodeId) := by
  constructor
  · intro x hx
    show findNodeById (deleteNode st.nodes tid) x = Option.none
    exact (findNodeById_eq_none_iff _ x).mpr (hid ▸ nodeIds_not_mem_delete hocc hnd x hx)
  · rfl

/-- Witness for C5 at a concrete state: deleting folder `2` (which
contains file `3`) makes both ids unfindable and nulls the selection,
which pointed at the deleted node. -/
theorem delete_removes_subtree_witness :
    (findNodeById
        (treeReducer
          { nodes := .cons (TreeNode.mk "1" "root" .folder 0 true
              (.some (.cons (TreeNode.mk "2" "sub" .folder 1 true
                (.some (.cons (TreeNode.mk "3" "f.txt" .file 2 true .none) .nil))) .nil))) .nil,
            selectedNodeId := Option.some "2" }
          (TreeAction.deleteNode "2")).nodes "2" = Option.none)
    ∧ (findNodeById
        (treeReducer
          { nodes := .cons (TreeNode.mk "1" "root" .folder 0 true
              (.some (.cons (TreeNode.mk "2" "sub" .folder 1 true
                (.some (.cons (TreeNode.mk "3" "f.txt" .file 2 true .none) .nil))) .nil))) .nil,
            selectedNodeId := Option.some "2" }
          (TreeAction.deleteNode "2")).nodes "3" = Option.none)
    ∧ (treeReducer
          { nodes := .cons (TreeNode.mk "1" "root" .folder 0 true
              (.some (.cons (TreeNode.mk "2" "sub" .folder 1 true
                (.some (.cons (TreeNode.mk "3" "f.txt" .file 2 true .none) .nil))) .nil))) .nil,
            selectedNodeId := Option.some "2" }
          (TreeAction.deleteNode "2")).selectedNodeId = Option.none :=
  ⟨(delete_removes_subtree _ "2"
      (TreeNode.mk "2" "sub" .folder 1 true
        (.some (.cons (TreeNode.mk "3" "f.txt" .file 2 true .none) .nil)))
      (by decide)
      (Occurs.child _ _ _ _ _ _ _ _ (Occurs.head _ _)) rfl).1 "2" (by decide),
   (delete_removes_subtree _ "2"
      (TreeNode.mk "2" "sub" .folder 1 true
        (.some (.cons (TreeNode.mk "3" "f.txt" .file 2 true .none) .nil)))
      (by decide)
      (Occurs.child _ _ _ _ _ _ _ _ (Occurs.head _ _)) rfl).1 "3" (by decide),
   (delete_removes_subtree _ "2"
      (TreeNode.mk "2" "sub" .folder 1 true
        (.some (.cons (TreeNode.mk "3" "f.txt" .file 2 true .none) .nil)))
      (by decide)
      (Occurs.child _ _ _ _ _ _ _ _ (Occurs.head _ _)) rfl).2⟩

/-! ### The parser (`src/lib/parser.ts`) -/

/-- `ParseResult` from `src/lib/types.ts`. -/
inductive ParseResult : Type where
  | ok (nodes : Forest)
  | error (message : String)

/-- `InputFormat` from `src/lib/types.ts`. -/
inductive InputFormat : Type where
  | markdown
  | ascii
  | unknown
deriving DecidableEq

/-- `detectFormat`'s `hasAsciiChars` test:
`['├', '└', '│', '─'].some(char => input.includes(char))`. -/
def hasBoxGlyph (input : String) : Bool :=
  input.data.contains '├' || input.data.contains '└' ||
  input.data.contains '│' || input.data.contains '─'

/-- `detectFormat`'s `lines`:
`input.trim().split('\n').filter(line => line.trim())`. -/
def detectLines (input : String) : List (List Char) :=
  (splitLines (trimChars input.data)).filter (fun l => !(trimChars l).isEmpty)

/-- `detectFormat`: any box-drawing glyph anywhere classifies the input
as ascii; otherwise any non-blank line classifies it as markdown. -/
def detectFormat (input : String) : InputFormat :=
  if hasBoxGlyph input then .ascii
  else
    if (detectLines input).any (fun l => headIs '-' (trimChars l)) then .markdown
    else if (detectLines input).length > 0 then .markdown
    else .unknown

/-- `generateId`, embedded as a deterministic counter (the source uses
`Date.now()`/`Math.random()`; ids are opaque, only compared for equality). -/
def generateId (counter : Nat) : String :=
  "node-" ++ toString counter

/-- Append a node to a parent's `children` array
(`if (parent.children) { parent.children.push(node); }`). -/
def pushChild (parent : TreeNode) (child : TreeNode) : TreeNode :=
  match parent with
  | .mk i n t d e (.some cs) => .mk i n t d e (.some (cs.snoc child))
  | .mk i n t d e .none => .mk i n t d e .none

/-- The parsers' pop loop
(`while (stack.length > 0 && stack[top].indent >= indent) stack.pop()`).
The source attaches every node to its parent at creation time by array
mutation; this embedding instead attaches a pending folder when it is
popped, which yields the same forest in the same order (nothing can be
attached to a parent while a pending child is still above it). -/
def popStack {A : Type} (shouldPop : A → Bool)
    (stack : List (TreeNode × A)) (root : Forest) :
    List (TreeNode × A) × Forest :=
  let popped := stack.takeWhile (fun en => shouldPop en.2)
  let kept := stack.dropWhile (fun en => shouldPop en.2)
  match popped with
  | [] => (kept, root)
  | en :: ens =>
    let collapsed := ens.foldl (fun acc pe => (pushChild pe.1 acc.1, pe.2)) en
    match kept with
    | [] => ([], root.snoc collapsed.1)
    | (p, pl) :: kept2 => ((pushChild p collapsed.1, pl) :: kept2, root)

/-- End-of-input: attach every still-pending folder (see `popStack`). -/
def flushStack {A : Type} (stack : List (TreeNode × A)) (root : Forest) : Forest :=
  match stack with
  | [] => root
  | en :: ens =>
    let collapsed := ens.foldl (fun acc pe => (pushChild pe.1 acc.1, pe.2)) en
    root.snoc collapsed.1

mutual
/-- The shared `adjustDepth` closure of both parsers:
`node.depth += increment`, recursing into `children` when present. -/
def adjustDepth (nodes : Forest) (increment : Nat) : Forest :=
  match nodes with
  | .nil => .nil
  | .cons (TreeNode.mk i nm t d e c) rest =>
    .cons (TreeNode.mk i nm t (d + increment) e (adjustChildren c increment))
      (adjustDepth rest increment)

def adjustChildren (c : Children) (increment : Nat) : Children :=
  match c with
  | .none => .none
  | .some cs => .some (adjustDepth cs increment)
end

/-- The post-parse normalization both parsers share: if the forest is a
single Folder root with at least one child, increment the depth of every
node below the root by one ("adjust depths for proper indentation"). -/
def normalizeRoot (root : Forest) : Forest :=
  match root with
  | .cons (TreeNode.mk i nm NodeType.folder d e (.some cs)) .nil =>
    if cs.isNil then root
    else .cons (TreeNode.mk i nm NodeType.folder d e (.some (adjustDepth cs 1))) .nil
  | _ => root

/-- Parser state: the root forest, the open-folder stack and the id
counter.  The stack's second component is the recorded indent width
(markdown) or connector level (ascii). -/
structure ParserState (A : Type) : Type where
  root : Forest
  stack : List (TreeNode × A)
  counter : Nat

/-- One line of `parseMarkdown`.  `line.match(/^(\s*)-\s*(.+)$/)`
succeeds iff the first non-whitespace character is `-` with at least one
character after it, and then `match[2].trim()` equals the text after the
`-`, trimmed; otherwise the fallback `/^(\s*)(.+)$/` applies and the
name is the trimmed non-whitespace remainder. -/
def mdLine (st : ParserState Nat) (line : List Char) : ParserState Nat :=
  if (trimChars line).isEmpty then st
  else
    let indent := (line.takeWhile isSpace).length
    let restChars := line.dropWhile isSpace
    let nameChars :=
      match restChars with
      | '-' :: r1 => if r1.isEmpty then trimChars restChars else trimChars r1
      | _ => trimChars restChars
    let isFolder := lastIs '/' nameChars
    let node := TreeNode.mk (generateId st.counter)
      (String.mk (if isFolder then dropLastChar nameChars else nameChars))
      (if isFolder then .folder else .file)
      (indent / 2) true
      (if isFolder then .some .nil else .none)
    let popRes := popStack (fun ind => decide (ind ≥ indent)) st.stack st.root
    if isFolder then
      { root := popRes.2, stack := (node, indent) :: popRes.1, counter := st.counter + 1 }
    else
      match popRes.1 with
      | [] => { root := popRes.2.snoc node, stack := [], counter := st.counter + 1 }
      | (p, pind) :: stack2 =>
        { root := popRes.2, stack := (pushChild p node, pind) :: stack2,
          counter := st.counter + 1 }

/-- The shared tail of both parsers: fail when no node was produced,
otherwise normalize and succeed. -/
def finishParse (root : Forest) : ParseResult :=
  if root.isNil then ParseResult.error "No valid directory structure found in input"
  else ParseResult.ok (normalizeRoot root)

/-- `parseMarkdown` from `src/lib/parser.ts`.  (The source's
`try/catch` wrapper is dead in this embedding: no step can throw.) -/
def parseMarkdown (input : String) : ParseResult :=
  let lines := splitLines input.data
  let st := lines.foldl mdLine { root := .nil, stack := [], counter := 0 }
  finishParse (flushStack st.stack st.root)

/-- The connector / continuation tokens of `parseAscii`
(`['├──', '└──', '│   ', '    ']`). -/
def branchTok : List Char := ['├', '─', '─']

def cornerTok : List Char := ['└', '─', '─']

def vertTok : List Char := ['│', ' ', ' ', ' ']

def blankTok : List Char := [' ', ' ', ' ', ' ']

/-- `cleanLine.substring(pos, pos + tok.length) === tok`. -/
def sliceIs (l : List Char) (pos : Nat) (tok : List Char) : Bool :=
  (l.drop pos).take tok.length == tok

/-- The token-scanning `while` loop of `parseAscii`.  On a connector
(`├──`/`└──`) the line is cut after the connector and trimmed while
`pos` is left where it was; on a continuation (`│   `/four spaces)
`pos` advances by 4 and `level` increments; on anything else the loop
stops with the line trimmed.  `fuel` only bounds the iteration count;
`cleanLine.length - pos` strictly decreases every iteration, so the
wrapper's `line.length + 1` is always enough and the embedding agrees
with the source loop. -/
def scanAsciiLoop (fuel : Nat) (cleanLine : List Char) (pos level : Nat) (found : Bool) :
    List Char × Nat × Bool :=
  match fuel with
  | 0 => (cleanLine, level, found)
  | fuel + 1 =>
    if pos < cleanLine.length then
      if sliceIs cleanLine pos branchTok || sliceIs cleanLine pos cornerTok then
        scanAsciiLoop fuel (trimChars (cleanLine.drop (pos + 3))) pos level true
      else if sliceIs cleanLine pos vertTok || sliceIs cleanLine pos blankTok then
        scanAsciiLoop fuel cleanLine (pos + 4) (level + 1) true
      else (trimChars cleanLine, level, found)
    else (cleanLine, level, found)

/-- Scan one line: returns the remaining `cleanLine`, the nesting
`level`, and whether any tree token was found. -/
def scanAsciiLine (line : List Char) : List Char × Nat × Bool :=
  scanAsciiLoop (line.length + 1) line 0 0 false

/-- One line of `parseAscii` (with its index in the input, for the
first-line implicit-root rule). -/
def asciiLine (st : ParserState Int) (idx : Nat) (line : List Char) : ParserState Int :=
  if (trimChars line).isEmpty then st
  else
    let scanned := scanAsciiLine line
    let nameChars := trimChars scanned.1
    let level := scanned.2.1
    let foundTreeChar := scanned.2.2
    if nameChars.isEmpty then st
    else
      let isFolder := lastIs '/' nameChars
      if !foundTreeChar && idx == 0 && isFolder then
        -- the un-prefixed first-line root: depth 0, pushed with the
        -- sentinel level -1 so every later line nests under it
        let node := TreeNode.mk (generateId st.counter)
          (String.mk (dropLastChar nameChars)) .folder 0 true (.some .nil)
        { root := st.root, stack := (node, (-1 : Int)) :: st.stack,
          counter := st.counter + 1 }
      else
        let node := TreeNode.mk (generateId st.counter)
          (String.mk (if isFolder then dropLastChar nameChars else nameChars))
          (if isFolder then .folder else .file)
          level true
          (if isFolder then .some .nil else .none)
        let popRes := popStack (fun l => decide (l ≥ (level : Int))) st.stack st.root
        if isFolder then
          { root := popRes.2, stack := (node, (level : Int)) :: popRes.1,
            counter := st.counter + 1 }
        else
          match popRes.1 with
          | [] => { root := popRes.2.snoc node, stack := [], counter := st.counter + 1 }
          | (p, pl) :: stack2 =>
            { root := popRes.2, stack := (pushChild p node, pl) :: stack2,
              counter := st.counter + 1 }

/-- `parseAscii` from `src/lib/parser.ts`.  (As with `parseMarkdown`,
the source's `try/catch` wrapper is dead in this embedding.) -/
def parseAscii (input : String) : ParseResult :=
  let lines := splitLines input.data
  let st := lines.enum.foldl (fun st il => asciiLine st il.1 il.2)
    { root := .nil, stack := [], counter := 0 }
  finishParse (flushStack st.stack st.root)

/-- `sanitizeInput`'s per-line comment stripping: a line whose trimmed
form starts with `#` becomes empty; otherwise everything from the first
`#` on is removed (`indexOf('#')` / `substring(0, idx)`). -/
def stripComment (line : List Char) : List Char :=
  if headIs '#' (trimChars line) then []
  else line.takeWhile (fun c => c ≠ '#')

/-- The character class of `sanitizeInput`'s `hasContent` regex test:
ASCII letters and digits, underscore, period, hyphen, slash. -/
def isContentChar (c : Char) : Bool :=
  c.isAlphanum || c = '_' || c = '.' || c = '-' || c = '/'

/-- `sanitizeInput`'s line filter: drop empty lines and lines with no
content character. -/
def keepLine (line : List Char) : Bool :=
  !(trimChars line).isEmpty && (trimChars line).any isContentChar

/-- `sanitizeInput` from `src/lib/parser.ts`. -/
def sanitizeInput (input : String) : String :=
  String.mk (joinNL (((splitLines input.data).map stripComment).filter keepLine))

/-- `parseDirectoryStructure` from `src/lib/parser.ts`: validate,
sanitize, detect, dispatch. -/
def parseDirectoryStructure (input : String) : ParseResult :=
  if (trimChars input.data).isEmpty then
    ParseResult.error "Input is empty. Please provide a directory structure."
  else
    let sanitizedInput := sanitizeInput input
    if (trimChars sanitizedInput.data).isEmpty then
      ParseResult.error "Input contains only comments or whitespace. Please provide a valid directory structure."
    else
      let format := detectFormat sanitizedInput
      if format = InputFormat.unknown then
        ParseResult.error "Unable to detect input format. Please use markdown (- folder/) or ASCII (├── folder/) format."
      else if format = InputFormat.markdown then
        parseMarkdown sanitizedInput
      else
        parseAscii sanitizedInput

/-- Does the list start with the given pattern? -/
def startsWithChars : List Char → List Char → Bool
  | _, [] => true
  | [], _ :: _ => false
  | x :: xs, y :: ys => x == y && startsWithChars xs ys

/-- Does the pattern occur contiguously anywhere in the list? -/
def containsSeq : List Char → List Char → Bool
  | [], pat => startsWithChars [] pat
  | c :: xs, pat => startsWithChars (c :: xs) pat || containsSeq xs pat

/-- `s.includes(pat)` (substring test), used to check whether a
rejection reason mentions a word. -/
def containsStr (s pat : String) : Bool :=
  containsSeq s.data pat.data

mutual
/-- Comparison definition for C2, modelled from the spec's invariant
wording (§3 inv. 3, §8.1), not from the source: every node's children
carry `depth = parent.depth + 1`. -/
def nodeDepthOk (n : TreeNode) : Bool :=
  match n with
  | .mk _ _ _ _ _ .none => true
  | .mk _ _ _ d _ (.some cs) => childrenDepthOk d cs

def childrenDepthOk (d : Nat) (f : Forest) : Bool :=
  match f with
  | .nil => true
  | .cons n rest => (n.depth == d + 1) && nodeDepthOk n && childrenDepthOk d rest

/-- Comparison definition for C2 (spec wording): every top-level node
has `depth = 0` and the parent/child depth relation holds throughout. -/
def forestDepthOk (f : Forest) : Bool :=
  match f with
  | .nil => true
  | .cons n rest => (n.depth == 0) && nodeDepthOk n && forestDepthOk rest
end

/-- **C1** (spec §8.4): evaluating the code on `"- src/\n  - index.ts"`.
The parse succeeds with one root Folder `src` containing one File child
`index.ts` — but the child's `depth` field is `2`, not `1` as the claim
states: the single-root normalization pass increments the child depths
that were already `parent + 1`. -/
theorem parse_markdown_bullet_example_eval :
    parseDirectoryStructure "- src/\n  - index.ts"
      = ParseResult.ok (.cons (TreeNode.mk "node-0" "src" .folder 0 true
          (.some (.cons (TreeNode.mk "node-1" "index.ts" .file 2 true .none) .nil))) .nil) :=
  rfl

/-- **C2** (spec §3 inv. 3, §8.1): evaluating the code on the successful
parse of `"- src/\n  - index.ts"`: the returned forest violates the
claimed depth invariant (root `src` has depth 0, its only child
`index.ts` has depth 2). -/
theorem depth_invariant_fails_after_markdown_parse :
    parseDirectoryStructure "- src/\n  - index.ts"
      = ParseResult.ok (.cons (TreeNode.mk "node-0" "src" .folder 0 true
          (.some (.cons (TreeNode.mk "node-1" "index.ts" .file 2 true .none) .nil))) .nil)
    ∧ forestDepthOk (.cons (TreeNode.mk "node-0" "src" .folder 0 true
          (.some (.cons (TreeNode.mk "node-1" "index.ts" .file 2 true .none) .nil))) .nil)
        = false :=
  ⟨rfl, rfl⟩

/-- **C4** (spec §8.5): the ASCII example
`"project/\n├── src/\n│   └── index.ts\n└── package.json"` parses to
exactly one root Folder `project` with two children in order: Folder
`src` containing exactly the File `index.ts`, and File `package.json`. -/
theorem parse_ascii_project_example :
    parseDirectoryStructure "project/\n├── src/\n│   └── index.ts\n└── package.json"
      = ParseResult.ok (.cons (TreeNode.mk "node-0" "project" .folder 0 true
          (.some (.cons (TreeNode.mk "node-1" "src" .folder 1 true
              (.some (.cons (TreeNode.mk "node-2" "index.ts" .file 2 true .none) .nil)))
            (.cons (TreeNode.mk "node-3" "package.json" .file 1 true .none) .nil)))) .nil) :=
  rfl

/-- Counterexample for **C7**: `parseMarkdown ""` does reject, but its
reason is `"No valid directory structure found in input"`, which does
not mention emptiness (it does not contain `"empty"`). -/
theorem parseMarkdown_empty_reason_lacks_empty :
    parseMarkdown "" = ParseResult.error "No valid directory structure found in input"
    ∧ containsStr "No valid directory structure found in input" "empty" = false :=
  ⟨rfl, rfl⟩

/-- **C7 as amended**: `parseMarkdown` on empty and whole-whitespace
input rejects with `"No valid directory structure found in input"`
(which does not mention emptiness), while `parseDirectoryStructure ""`
rejects with a reason that does mention emptiness. -/
theorem empty_input_rejections :
    parseMarkdown "" = ParseResult.error "No valid directory structure found in input"
    ∧ parseMarkdown " \t \n  " = ParseResult.error "No valid directory structure found in input"
    ∧ parseDirectoryStructure ""
        = ParseResult.error "Input is empty. Please provide a directory structure."
    ∧ containsStr "Input is empty. Please provide a directory structure." "empty" = true :=
  ⟨rfl, rfl, rfl, rfl⟩

/-- Comparison definition for C8, modelled from the claim's wording:
"alphanumeric character, path separator, or hyphen/period" — note this
class does NOT contain the underscore that the source's regex accepts. -/
def isContentCharClaim (c : Char) : Bool :=
  c.isAlphanum || c = '/' || c = '-' || c = '.'

/-- The claim's per-line pipeline (C8 wording, unamended): drop comment
lines, strip inline comments, then drop lines whose trimmed remainder is
empty or has no claimed content character. -/
def sanitizeSpecClaimLine (line : List Char) : Option (List Char) :=
  if headIs '#' (trimChars line) then Option.none
  else
    let stripped := line.takeWhile (fun c => c ≠ '#')
    if !(trimChars stripped).isEmpty && (trimChars stripped).any isContentCharClaim then
      Option.some stripped
    else Option.none

/-- The sanitizer exactly as claim C8 words it (unamended). -/
def sanitizeSpecClaim (input : String) : String :=
  String.mk (joinNL ((splitLines input.data).filterMap sanitizeSpecClaimLine))

/-- The claim's content class amended with the underscore, matching the
source's regex class. -/
def isContentCharAmended (c : Char) : Bool :=
  c.isAlphanum || c = '_' || c = '/' || c = '-' || c = '.'

/-- The claim's per-line pipeline with the amended content class. -/
def sanitizeSpecAmendedLine (line : List Char) : Option (List Char) :=
  if headIs '#' (trimChars line) then Option.none
  else
    let stripped := line.takeWhile (fun c => c ≠ '#')
    if !(trimChars stripped).isEmpty && (trimChars stripped).any isContentCharAmended then
      Option.some stripped
    else Option.none

/-- The sanitizer as claim C8 words it, amended to also keep lines whose
only content character is an underscore. -/
def sanitizeSpecAmended (input : String) : String :=
  String.mk (joinNL ((splitLines input.data).filterMap sanitizeSpecAmendedLine))

/-- Counterexample for **C8**: on the input `"_"` the source's sanitizer
keeps the line (the regex class contains `_`), while the claim's
description drops it (underscore is not alphanumeric, path separator,
hyphen or period). -/
theorem sanitize_underscore_divergence :
    sanitizeInput "_" = "_" ∧ sanitizeSpecClaim "_" = "" ∧ ("_" : String) ≠ "" :=
  ⟨rfl, rfl, by decide⟩

theorem isContentChar_eq_amended (c : Char) : isContentChar c = isContentCharAmended c := by
  simp only [isContentChar, isContentCharAmended, Bool.or_assoc]
  by_cases h1 : c = '.'
  all_goals by_cases h2 : c = '/'
  all_goals simp [h1, h2]

theorem isContentChar_funext : isContentChar = isContentCharAmended :=
  funext isContentChar_eq_amended

theorem keepLine_nil : keepLine [] = false := rfl

theorem sanitize_lines_eq (ls : List (List Char)) :
    (ls.map stripComment).filter keepLine = ls.filterMap sanitizeSpecAmendedLine := by
  induction ls with
  | nil => rfl
  | cons l ls ih =>
    rw [List.map_cons, List.filter_cons, List.filterMap_cons]
    by_cases hc : headIs '#' (trimChars l) = true
    · rw [show stripComment l = [] from by rw [stripComment, if_pos hc],
        show sanitizeSpecAmendedLine l = Option.none from by
          rw [sanitizeSpecAmendedLine, if_pos hc]]
      rw [keepLine_nil]
      exact ih
    · have hsc : stripComment l = l.takeWhile (fun c => c ≠ '#') := by
        rw [stripComment, if_neg hc]
      have hkeep : keepLine (stripComment l)
          = (!(trimChars (l.takeWhile (fun c => c ≠ '#'))).isEmpty
             && (trimChars (l.takeWhile (fun c => c ≠ '#'))).any isContentCharAmended) := by
        rw [hsc, keepLine, isContentChar_funext]
      rw [sanitizeSpecAmendedLine, if_neg hc]
      by_cases hk : (!(trimChars (l.takeWhile (fun c => c ≠ '#'))).isEmpty
          && (trimChars (l.takeWhile (fun c => c ≠ '#'))).any isContentCharAmended) = true
      · rw [hkeep, if_pos hk, if_pos hk, hsc, ih]
      · rw [hkeep, if_neg hk, if_neg hk, ih]

/-- **C8 as amended** (spec §4.1): for every input, `sanitizeInput`
processes each line exactly as the claim describes — comment lines
dropped, inline comments stripped, decoration-only lines dropped,
survivors joined with newline, never failing — with the content class
amended to also include the underscore. -/
theorem sanitizeInput_eq_spec (input : String) :
    sanitizeInput input = sanitizeSpecAmended input := by
  rw [sanitizeInput, sanitizeSpecAmended, sanitize_lines_eq]

/-! ### String-level lemmas for the detector and the facade -/

theorem trimChars_eq_rdrop (l : List Char) :
    trimChars l = List.rdropWhile isSpace (l.dropWhile isSpace) := rfl

theorem dropWhile_head_false (l : List Char) (p : Char → Bool) (c : Char) (r : List Char)
    (h : l.dropWhile p = c :: r) : p c = false := by
  induction l with
  | nil => simp [List.dropWhile] at h
  | cons x xs ih =>
    rw [List.dropWhile_cons] at h
    by_cases hp : p x = true
    · rw [if_pos hp] at h
      exact ih h
    · rw [if_neg hp] at h
      cases h
      simpa using hp

theorem trimChars_eq_nil_iff (l : List Char) :
    trimChars l = [] ↔ ∀ c ∈ l, isSpace c := by
  rw [trimChars_eq_rdrop, List.rdropWhile_eq_nil_iff]
  constructor
  · intro h c hc
    rcases hd : l.dropWhile isSpace with _ | ⟨x, xs⟩
    · exact List.dropWhile_eq_nil_iff.mp hd c hc
    · have hx : isSpace x = false := dropWhile_head_false l isSpace x xs hd
      have hx2 : isSpace x = true := h x (by rw [hd]; exact List.mem_cons_self x xs)
      rw [hx] at hx2
      cases hx2
  · intro h x hx
    exact h x ((List.dropWhile_suffix isSpace).subset hx)

theorem trimChars_subset (l : List Char) (c : Char) (h : c ∈ trimChars l) : c ∈ l :=
  (List.dropWhile_suffix isSpace).subset
    ((List.rdropWhile_prefix isSpace _).subset (by rwa [trimChars_eq_rdrop] at h))

theorem trimChars_head_not_space (l : List Char) (c : Char) (r : List Char)
    (h : trimChars l = c :: r) : isSpace c = false := by
  rw [trimChars_eq_rdrop] at h
  obtain ⟨t, ht⟩ := List.rdropWhile_prefix isSpace (l.dropWhile isSpace)
  rw [h] at ht
  exact dropWhile_head_false l isSpace c (r ++ t) (by rw [← ht]; simp)

theorem splitLines_ne_nil : ∀ (s : List Char), splitLines s ≠ []
  | [] => by simp [splitLines]
  | c :: cs => by
    by_cases h : c = '\n'
    · simp [splitLines, h]
    · rcases hs : splitLines cs with _ | ⟨l, ls⟩
      · simp [splitLines, h, hs]
      · simp [splitLines, h, hs]

theorem mem_of_mem_splitLines : ∀ (s l : List Char), l ∈ splitLines s → ∀ c ∈ l, c ∈ s
  | [], l, hl, c, hc => by
    simp [splitLines] at hl
    subst hl
    cases hc
  | x :: xs, l, hl, c, hc => by
    by_cases hx : x = '\n'
    · simp [splitLines, hx] at hl
      rcases hl with rfl | hl
      · cases hc
      · exact List.mem_cons_of_mem _ (mem_of_mem_splitLines xs l hl c hc)
    · rcases hs : splitLines xs with _ | ⟨l0, ls⟩
      · exact absurd hs (splitLines_ne_nil xs)
      · simp [splitLines, hx, hs] at hl
        rcases hl with rfl | hl
        · rcases List.mem_cons.mp hc with rfl | hc2
          · exact List.mem_cons_self c xs
          · exact List.mem_cons_of_mem _
              (mem_of_mem_splitLines xs l0 (by rw [hs]; exact List.mem_cons_self l0 ls) c hc2)
        · exact List.mem_cons_of_mem _
            (mem_of_mem_splitLines xs l (by rw [hs]; exact List.mem_cons_of_mem _ hl) c hc)

theorem splitLines_cons_of_ne (x : Char) (xs : List Char) (h : x ≠ '\n') :
    ∃ l0 ls, splitLines xs = l0 :: ls ∧ splitLines (x :: xs) = (x :: l0) :: ls := by
  rcases hs : splitLines xs with _ | ⟨l0, ls⟩
  · exact absurd hs (splitLines_ne_nil xs)
  · exact ⟨l0, ls, rfl, by simp [splitLines, h, hs]⟩

theorem mem_joinNL : ∀ (ls : List (List Char)) (c : Char),
    c ∈ joinNL ls → c = '\n' ∨ ∃ l ∈ ls, c ∈ l
  | [], c, h => by cases h
  | [l], c, h => by
    rw [joinNL] at h
    exact Or.inr ⟨l, List.mem_cons_self l [], h⟩
  | l :: l2 :: ls, c, h => by
    have hj : joinNL (l :: l2 :: ls) = l ++ '\n' :: joinNL (l2 :: ls) := rfl
    rw [hj] at h
    rcases List.mem_append.mp h with h | h
    · exact Or.inr ⟨l, List.mem_cons_self _ _, h⟩
    · rcases List.mem_cons.mp h with rfl | h
      · exact Or.inl rfl
      · rcases mem_joinNL (l2 :: ls) c h with h | ⟨l3, hl3, hc3⟩
        · exact Or.inl h
        · exact Or.inr ⟨l3, List.mem_cons_of_mem _ hl3, hc3⟩

theorem mem_of_mem_stripComment (l : List Char) (c : Char) (h : c ∈ stripComment l) :
    c ∈ l := by
  rw [stripComment] at h
  by_cases hc : headIs '#' (trimChars l) = true
  · rw [if_pos hc] at h
    cases h
  · rw [if_neg hc] at h
    exact (List.takeWhile_prefix _).subset h

theorem mem_of_mem_sanitize (s : String) (c : Char) (h : c ∈ (sanitizeInput s).data) :
    c = '\n' ∨ c ∈ s.data := by
  have h2 : c ∈ joinNL (((splitLines s.data).map stripComment).filter keepLine) := h
  rcases mem_joinNL _ c h2 with h3 | ⟨l2, hl2, hc2⟩
  · exact Or.inl h3
  · obtain ⟨hmap, -⟩ := List.mem_filter.mp hl2
    obtain ⟨l, hl, rfl⟩ := List.mem_map.mp hmap
    exact Or.inr (mem_of_mem_splitLines s.data l hl c (mem_of_mem_stripComment l c hc2))

/-- Does a parse result carry a rejection reason beginning with
`"Unable to detect input format"`? -/
def resultUnableToDetect (r : ParseResult) : Bool :=
  match r with
  | .ok _ => false
  | .error e => startsWithChars e.data ("Unable to detect input format").data

theorem finishParse_not_unable (root : Forest) :
    resultUnableToDetect (finishParse root) = false := by
  rw [finishParse]
  split
  · rfl
  · rfl

theorem parseMarkdown_not_unable (s : String) :
    resultUnableToDetect (parseMarkdown s) = false := by
  rw [parseMarkdown]
  exact finishParse_not_unable _

theorem parseAscii_not_unable (s : String) :
    resultUnableToDetect (parseAscii s) = false := by
  rw [parseAscii]
  exact finishParse_not_unable _

/-- The detector never answers `unknown` on input whose trimmed form is
non-empty: the first non-whitespace character anchors a surviving line. -/
theorem detectFormat_ne_unknown (s : String)
    (h : (trimChars s.data).isEmpty = false) :
    detectFormat s ≠ InputFormat.unknown := by
  rcases htc : trimChars s.data with _ | ⟨c, r⟩
  · rw [htc] at h
    simp at h
  · have hcs : isSpace c = false := trimChars_head_not_space _ _ _ htc
    have hcn : c ≠ '\n' := by
      intro hh
      subst hh
      simp [isSpace] at hcs
    obtain ⟨l0, ls, hsp, hsp2⟩ := splitLines_cons_of_ne c r hcn
    have hkeepB : (!(trimChars (c :: l0)).isEmpty) = true := by
      rcases hq : trimChars (c :: l0) with _ | ⟨y, ys⟩
      · have hall := (trimChars_eq_nil_iff (c :: l0)).mp hq c (List.mem_cons_self _ _)
        rw [hcs] at hall
        cases hall
      · simp
    have hlines : ∃ l2 ls2, detectLines s = l2 :: ls2 := by
      rw [detectLines, htc, hsp2, List.filter_cons, hkeepB]
      exact ⟨_, _, rfl⟩
    obtain ⟨l2, ls2, hl2⟩ := hlines
    rw [detectFormat]
    by_cases ha : hasBoxGlyph s = true
    · rw [if_pos ha]
      intro hh
      cases hh
    · rw [if_neg ha]
      by_cases hmd : (detectLines s).any (fun l => headIs '-' (trimChars l)) = true
      · rw [if_pos hmd]
        intro hh
        cases hh
      · rw [if_neg hmd, if_pos (by rw [hl2]; simp)]
        intro hh
        cases hh

/-- **C10** (implicit, `parseDirectoryStructure` lines 338-373): for every
input string, the facade never returns a rejection whose reason begins
with `"Unable to detect input format"`: the detector only runs on
sanitized input with non-empty trim, and such input is always classified
markdown or ascii. -/
theorem parse_never_reports_unknown_format (input : String) :
    resultUnableToDetect (parseDirectoryStructure input) = false := by
  rw [parseDirectoryStructure]
  by_cases h1 : (trimChars input.data).isEmpty = true
  · rw [if_pos h1]
    rfl
  · rw [if_neg h1]
    by_cases h2 : (trimChars (sanitizeInput input).data).isEmpty = true
    · rw [if_pos h2]
      rfl
    · rw [if_neg h2]
      have hne := detectFormat_ne_unknown (sanitizeInput input)
        (Bool.not_eq_true _ ▸ h2)
      rw [if_neg hne]
      by_cases h3 : detectFormat (sanitizeInput input) = InputFormat.markdown
      · rw [if_pos h3]
        exact parseMarkdown_not_unable _
      · rw [if_neg h3]
        exact parseAscii_not_unable _

theorem nonspace_mem_trim_ne_nil (l : List Char) (g : Char) (hg : g ∈ l)
    (hs : isSpace g = false) : (trimChars l).isEmpty = false := by
  rcases hq : trimChars l with _ | ⟨y, ys⟩
  · have hall := (trimChars_eq_nil_iff l).mp hq g hg
    rw [hs] at hall
    cases hall
  · rfl

/-- **C3** (spec §4.2, §8.9): for every input whose sanitized form
contains at least one box-drawing glyph (`├`, `└`, `│` or `─`), the
detector classifies the sanitized input as ascii and the facade routes
the parse to `parseAscii` — regardless of any bullet markers. -/
theorem glyph_routes_to_ascii (input : String)
    (h : hasBoxGlyph (sanitizeInput input) = true) :
    detectFormat (sanitizeInput input) = InputFormat.ascii
    ∧ parseDirectoryStructure input = parseAscii (sanitizeInput input) := by
  obtain ⟨g, hmem, hgs, hgn⟩ :
      ∃ g, g ∈ (sanitizeInput input).data ∧ isSpace g = false ∧ g ≠ '\n' := by
    rw [hasBoxGlyph] at h
    simp only [Bool.or_eq_true] at h
    rcases h with ((h | h) | h) | h
    · exact ⟨'├', by simpa using h, by decide, by decide⟩
    · exact ⟨'└', by simpa using h, by decide, by decide⟩
    · exact ⟨'│', by simpa using h, by decide, by decide⟩
    · exact ⟨'─', by simpa using h, by decide, by decide⟩
  have hsanit_ne : (trimChars (sanitizeInput input).data).isEmpty = false :=
    nonspace_mem_trim_ne_nil _ g hmem hgs
  have hinput_mem : g ∈ input.data := by
    rcases mem_of_mem_sanitize input g hmem with rfl | hm
    · exact absurd rfl hgn
    · exact hm
  have hinput_ne : (trimChars input.data).isEmpty = false :=
    nonspace_mem_trim_ne_nil _ g hinput_mem hgs
  have hdet : detectFormat (sanitizeInput input) = InputFormat.ascii := by
    rw [detectFormat, if_pos h]
  refine ⟨hdet, ?_⟩
  have h1 : ¬ (trimChars input.data).isEmpty = true := by simp [hinput_ne]
  have h2 : ¬ (trimChars (sanitizeInput input).data).isEmpty = true := by
    simp [hsanit_ne]
  rw [parseDirectoryStructure, if_neg h1, if_neg h2,
    if_neg (by simp [hdet]), if_neg (by simp [hdet])]

/-- Witness for C3 on mixed input: `"- a\n├── b"` has a bullet line and a
box glyph; the detector says ascii and the facade runs the ASCII parser. -/
theorem glyph_routes_to_ascii_witness :
    detectFormat (sanitizeInput "- a\n├── b") = InputFormat.ascii
    ∧ parseDirectoryStructure "- a\n├── b" = parseAscii (sanitizeInput "- a\n├── b") :=
  glyph_routes_to_ascii "- a\n├── b" rfl
